import Mathlib

/-!
Verification of the ledger core of rust_blockchain (src/lib.rs): blocks,
proof-of-work validation, chain validation, transactions, balances and the
longest-chain conflict resolution.

The SHA-256 hex digest is embedded as an abstract parameter
H : String → String applied to the undelimited concatenation of the block
fields, exactly as the source builds its hasher input.  Collision resistance
of the digest is modelled, where a claim needs it, as injectivity of H, and
the fixed 64-hex-character output width as a length hypothesis on H.
Rust u32/u64 counters become Nat, f64 amounts become Rat, Rust String
values become Lean String, and the HashMap node registry becomes an
association list.
-/

namespace RustChain

/-- Block (src/lib.rs, struct Block). -/
structure Block where
  index : Nat
  timestamp : Nat
  data : String
  previous_hash : String
  hash : String
  nonce : Nat
  difficulty : Nat
  deriving DecidableEq, Repr

/-- Blockchain (src/lib.rs, struct Blockchain). -/
structure Blockchain where
  chain : List Block
  pending_transactions : List String
  difficulty : Nat
  mining_reward : Rat
  nodes : List (String × Bool)
  deriving DecidableEq, Repr

/-- Transaction (src/lib.rs, struct Transaction). -/
structure Transaction where
  sender : String
  recipient : String
  amount : Rat
  timestamp : Nat
  signature : Option String
  deriving DecidableEq, Repr

/-- Digest input of calculate_hash: the format! concatenation of index,
previous_hash, timestamp, data, nonce and difficulty, with no separator. -/
def hashInput (index : Nat) (previous_hash : String) (timestamp : Nat)
    (data : String) (nonce : Nat) (difficulty : Nat) : String :=
  toString index ++ previous_hash ++ toString timestamp ++ data
    ++ toString nonce ++ toString difficulty

/-- calculate_hash (src/lib.rs): the digest H applied to the concatenated
fields; in the source H is hex-encoded SHA-256. -/
def calculate_hash (H : String → String) (index : Nat) (previous_hash : String)
    (timestamp : Nat) (data : String) (nonce : Nat) (difficulty : Nat) : String :=
  H (hashInput index previous_hash timestamp data nonce difficulty)

/-- is_hash_valid (src/lib.rs): hash.starts_with of "0".repeat(difficulty),
embedded as a prefix test on the character list of the string. -/
def is_hash_valid (hash : String) (difficulty : Nat) : Bool :=
  (List.replicate difficulty '0').isPrefixOf hash.data

/-- is_block_valid (src/lib.rs): the four checks of Blockchain::is_block_valid,
in source order; the early returns of the source collapse into one
conjunction. -/
def is_block_valid (H : String → String) (block previous_block : Block) : Bool :=
  decide (block.index = previous_block.index + 1) &&
  decide (block.previous_hash = previous_block.hash) &&
  decide (block.hash = calculate_hash H block.index block.previous_hash
    block.timestamp block.data block.nonce block.difficulty) &&
  is_hash_valid block.hash block.difficulty

/-- Loop of is_chain_valid: every adjacent pair of the list passes
is_block_valid. -/
def chainPairsValid (H : String → String) : List Block → Bool
  | [] => true
  | [_] => true
  | a :: b :: rest => is_block_valid H b a && chainPairsValid H (b :: rest)

/-- is_chain_valid (src/lib.rs): an empty chain is valid, otherwise the loop
checks chain[i] against chain[i-1] for every i from 1. -/
def is_chain_valid (H : String → String) (bc : Blockchain) : Bool :=
  chainPairsValid H bc.chain

/-- Number of leading zero characters of a digest string. -/
def leadingZeroCount (s : String) : Nat :=
  (s.data.takeWhile (fun c => c == '0')).length

/-- Transaction::new with the clock reading passed in as ts. -/
def Transaction.new (sender recipient : String) (amount : Rat) (ts : Nat) :
    Transaction :=
  { sender := sender, recipient := recipient, amount := amount,
    timestamp := ts, signature := none }

/-- Transaction::is_valid (src/lib.rs): party strings non-empty and amount
strictly positive; Rust is_empty() is embedded as equality with "". -/
def Transaction.is_valid (t : Transaction) : Bool :=
  if t.sender = "" ∨ t.recipient = "" then false
  else if t.amount ≤ 0 then false
  else true

/-- Blockchain::create_transaction (src/lib.rs): reject an invalid
transaction, otherwise serialize (toJson stands for serde_json::to_string,
which cannot fail on this record) and push onto the pending pool. -/
def create_transaction (toJson : Transaction → String) (bc : Blockchain)
    (t : Transaction) : Blockchain × Except String Unit :=
  if t.is_valid then
    ({ bc with pending_transactions := bc.pending_transactions ++ [toJson t] },
      Except.ok ())
  else (bc, Except.error "Invalid transaction")

/-- Blockchain::add_block (src/lib.rs) with the freshly mined Block::new
result passed in as b (mining is nondeterministic: clock and nonce search). -/
def add_block_with (H : String → String) (bc : Blockchain) (b : Block) :
    Blockchain × Except String Unit :=
  match bc.chain.getLast? with
  | some latest =>
      if is_block_valid H b latest then
        ({ bc with chain := bc.chain ++ [b] }, Except.ok ())
      else (bc, Except.error "Invalid block")
  | none => (bc, Except.error "Chain is empty")

/-- Payload of the block mined by Blockchain::mine_pending_transactions: the
pending pool followed by the serialized reward transaction, joined by the
bar character. -/
def minedData (toJson : Transaction → String) (bc : Blockchain) (miner : String)
    (ts : Nat) : String :=
  String.intercalate "|"
    (bc.pending_transactions ++ [toJson (Transaction.new "System" miner bc.mining_reward ts)])

/-- Blockchain::mine_pending_transactions (src/lib.rs): the pending pool is
cleared, then add_block runs on the joined payload; b is the block Block::new
returned for that call (its fields are constrained by MinedOk obligations in
the theorems below, in particular b.data equals minedData). -/
def mine_pending_transactions (H : String → String) (_toJson : Transaction → String)
    (bc : Blockchain) (_miner : String) (_ts : Nat) (b : Block) :
    Blockchain × Except String Unit :=
  add_block_with H { bc with pending_transactions := [] } b

/-- HashMap::insert of the node registry on the association list. -/
def insertNode : List (String × Bool) → String → List (String × Bool)
  | [], address => [(address, true)]
  | (k, v) :: rest, address =>
      if k = address then (k, true) :: rest else (k, v) :: insertNode rest address

/-- Blockchain::register_node (src/lib.rs). -/
def register_node (bc : Blockchain) (address : String) : Blockchain :=
  { bc with nodes := insertNode bc.nodes address }

/-- Temporary blockchain resolve_conflicts builds around a candidate chain:
empty pending pool, the local difficulty and reward, empty node registry. -/
def tempChain (c : List Block) (difficulty : Nat) (mining_reward : Rat) : Blockchain :=
  { chain := c, pending_transactions := [], difficulty := difficulty,
    mining_reward := mining_reward, nodes := [] }

/-- Loop of Blockchain::resolve_conflicts: scan the candidates, keeping the
current best chain and max_length, adopting a candidate only when it is
strictly longer than max_length and the temporary blockchain around it passes
is_chain_valid. -/
def scanChains (H : String → String) (difficulty : Nat) (mining_reward : Rat) :
    List (List Block) → Option (List Block) → Nat → Option (List Block) × Nat
  | [], best, maxLen => (best, maxLen)
  | c :: rest, best, maxLen =>
      if maxLen < c.length then
        if is_chain_valid H (tempChain c difficulty mining_reward) then
          scanChains H difficulty mining_reward rest (some c) c.length
        else scanChains H difficulty mining_reward rest best maxLen
      else scanChains H difficulty mining_reward rest best maxLen

/-- Blockchain::resolve_conflicts (src/lib.rs): replace the local chain with
the scan winner when there is one. -/
def resolve_conflicts (H : String → String) (bc : Blockchain)
    (other_chains : List (List Block)) : Blockchain × Bool :=
  match (scanChains H bc.difficulty bc.mining_reward other_chains none bc.chain.length).1 with
  | some c => ({ bc with chain := c }, true)
  | none => (bc, false)

/-- Proof-of-work facts Block::new establishes for its result: the recorded
hash is the digest of the block's own fields and meets the recorded
difficulty (the mining loop only exits when is_hash_valid holds). -/
abbrev PoW (H : String → String) (b : Block) : Prop :=
  b.hash = calculate_hash H b.index b.previous_hash b.timestamp b.data b.nonce b.difficulty ∧
  is_hash_valid b.hash b.difficulty = true

/-- Everything Block::new(index, data, previous_hash, difficulty) guarantees
about its result when it terminates; the timestamp and nonce stay free. -/
abbrev MinedOk (H : String → String) (index : Nat) (data previous_hash : String)
    (difficulty : Nat) (b : Block) : Prop :=
  b.index = index ∧ b.data = data ∧ b.previous_hash = previous_hash ∧
  b.difficulty = difficulty ∧ PoW H b

/-- Ledger states reachable from Blockchain::new by add_block,
create_transaction, mine_pending_transactions, register_node and
resolve_conflicts, with arbitrary candidate chains, clock readings and
mining outcomes. -/
inductive Reachable (H : String → String) (toJson : Transaction → String) :
    Blockchain → Prop where
  | init (difficulty : Nat) (mining_reward : Rat) (g : Block) :
      MinedOk H 0 "Genesis Block" "0" difficulty g →
      Reachable H toJson
        { chain := [g], pending_transactions := [], difficulty := difficulty,
          mining_reward := mining_reward, nodes := [] }
  | add (st : Blockchain) (data : String) (b : Block) :
      Reachable H toJson st →
      (∀ latest, st.chain.getLast? = some latest →
        MinedOk H (latest.index + 1) data latest.hash st.difficulty b) →
      Reachable H toJson (add_block_with H st b).1
  | tx (st : Blockchain) (t : Transaction) :
      Reachable H toJson st →
      Reachable H toJson (create_transaction toJson st t).1
  | mine (st : Blockchain) (miner : String) (ts : Nat) (b : Block) :
      Reachable H toJson st →
      (∀ latest, st.chain.getLast? = some latest →
        MinedOk H (latest.index + 1) (minedData toJson st miner ts) latest.hash
          st.difficulty b) →
      Reachable H toJson (mine_pending_transactions H toJson st miner ts b).1
  | node (st : Blockchain) (address : String) :
      Reachable H toJson st →
      Reachable H toJson (register_node st address)
  | resolve (st : Blockchain) (cands : List (List Block)) :
      Reachable H toJson st →
      Reachable H toJson (resolve_conflicts H st cands).1

/-! ### Basic lemmas about the validity checks -/

/-- Replicated zeros are a prefix exactly when the leading zero run is long
enough. -/
lemma replicate_zero_isPrefixOf_iff (d : Nat) (l : List Char) :
    (List.replicate d '0').isPrefixOf l = true ↔
      d ≤ (l.takeWhile (fun c => c == '0')).length := by
  induction d generalizing l with
  | zero => simp [List.isPrefixOf]
  | succ n ih =>
    cases l with
    | nil => simp [List.isPrefixOf, List.replicate_succ]
    | cons c cs =>
      by_cases hc : c = '0'
      · subst hc
        simpa [List.replicate_succ, List.isPrefixOf, List.takeWhile_cons] using ih cs
      · simp [List.replicate_succ, List.isPrefixOf, List.takeWhile_cons, hc,
          Ne.symm hc, Nat.succ_le_iff]

/-- is_hash_valid asks for at least difficulty leading zero characters. -/
lemma is_hash_valid_iff (h : String) (d : Nat) :
    is_hash_valid h d = true ↔ d ≤ leadingZeroCount h := by
  simpa [is_hash_valid, leadingZeroCount] using replicate_zero_isPrefixOf_iff d h.data

/-- Unfolding of the four checks of is_block_valid. -/
lemma is_block_valid_iff (H : String → String) (b p : Block) :
    is_block_valid H b p = true ↔
      (b.index = p.index + 1 ∧ b.previous_hash = p.hash ∧
        b.hash = calculate_hash H b.index b.previous_hash b.timestamp b.data
          b.nonce b.difficulty ∧
        is_hash_valid b.hash b.difficulty = true) := by
  simp [is_block_valid, Bool.and_eq_true, decide_eq_true_eq, and_assoc]

/-- C2: is_block_valid(block, previous) is true if and only if the index
increments, the previous hash links, the digest of the block's own fields
reproduces the recorded hash, and the hash has at least difficulty leading
zero characters. -/
theorem is_block_valid_iff_four_conditions (H : String → String) (b p : Block) :
    is_block_valid H b p = true ↔
      (b.index = p.index + 1 ∧ b.previous_hash = p.hash ∧
        b.hash = calculate_hash H b.index b.previous_hash b.timestamp b.data
          b.nonce b.difficulty ∧
        b.difficulty ≤ leadingZeroCount b.hash) := by
  rw [is_block_valid_iff, is_hash_valid_iff]

/-! ### C8: create_transaction -/

/-- Characterisation of Transaction::is_valid. -/
lemma is_valid_iff (t : Transaction) :
    t.is_valid = true ↔ (t.sender ≠ "" ∧ t.recipient ≠ "" ∧ 0 < t.amount) := by
  unfold Transaction.is_valid
  split_ifs with h1 h2
  · constructor
    · intro h; simp at h
    · rintro ⟨hs, hr, -⟩
      rcases h1 with h | h
      · exact absurd h hs
      · exact absurd h hr
  · constructor
    · intro h; simp at h
    · rintro ⟨-, -, ha⟩
      exact absurd h2 (not_le.mpr ha)
  · push_neg at h1
    exact iff_of_true rfl ⟨h1.1, h1.2, lt_of_not_ge h2⟩

/-- C8: create_transaction fails with the invalid-transaction error and keeps
the state unchanged exactly when the sender is empty, the recipient is empty,
or the amount is not strictly positive; otherwise it appends the serialized
transaction to the pending pool and returns Ok. -/
theorem create_transaction_spec (toJson : Transaction → String) (bc : Blockchain)
    (t : Transaction) :
    (t.is_valid = true ↔ (t.sender ≠ "" ∧ t.recipient ≠ "" ∧ 0 < t.amount)) ∧
    (t.is_valid = false →
      create_transaction toJson bc t = (bc, Except.error "Invalid transaction")) ∧
    (t.is_valid = true →
      create_transaction toJson bc t =
        ({ bc with pending_transactions := bc.pending_transactions ++ [toJson t] },
          Except.ok ())) := by
  refine ⟨is_valid_iff t, ?_, ?_⟩ <;> intro h <;> simp [create_transaction, h]

/-! ### C9: resolve_conflicts only ever touches the chain -/

/-- C9: resolve_conflicts leaves the pending pool, difficulty, mining reward
and node registry unchanged for every input; only the chain may change. -/
theorem resolve_conflicts_frame (H : String → String) (bc : Blockchain)
    (cands : List (List Block)) :
    ((resolve_conflicts H bc cands).1).pending_transactions = bc.pending_transactions ∧
    ((resolve_conflicts H bc cands).1).difficulty = bc.difficulty ∧
    ((resolve_conflicts H bc cands).1).mining_reward = bc.mining_reward ∧
    ((resolve_conflicts H bc cands).1).nodes = bc.nodes := by
  unfold resolve_conflicts
  cases (scanChains H bc.difficulty bc.mining_reward cands none bc.chain.length).1 <;> simp

/-! ### C6: balance replay -/

/-- Inner body of the balance loop: one split fragment, parsed by fromJson
(standing for serde_json::from_str), credited to the recipient and debited
from the sender, in source order. -/
def processFragment (fromJson : String → Option Transaction) (address : String)
    (balance : Rat) (frag : String) : Rat :=
  match fromJson frag with
  | some t =>
      let balance := if t.recipient = address then balance + t.amount else balance
      if t.sender = address then balance - t.amount else balance
  | none => balance

/-- Blockchain::get_balance_of_address (src/lib.rs): replay every block,
split the payload on the bar character, fold over the fragments. -/
def get_balance_of_address (fromJson : String → Option Transaction)
    (bc : Blockchain) (address : String) : Rat :=
  bc.chain.foldl
    (fun balance block =>
      (block.data.splitOn "|").foldl (processFragment fromJson address) balance)
    0

/-- Net effect of one parsed transaction on an address. -/
def txContribution (address : String) (t : Transaction) : Rat :=
  (if t.recipient = address then t.amount else 0) -
  (if t.sender = address then t.amount else 0)

/-- Spec-side restatement of the balance: the sum, over every block of the
chain and every bar-separated fragment of its payload that parses as a
Transaction, of the parsed transaction's contribution; fragments that fail to
parse are skipped. -/
def balanceSpec (fromJson : String → Option Transaction) (bc : Blockchain)
    (address : String) : Rat :=
  (bc.chain.map (fun block =>
    (((block.data.splitOn "|").filterMap fromJson).map (txContribution address)).sum)).sum

/-- One fragment moves the running balance by the parsed contribution. -/
lemma processFragment_eq (fromJson : String → Option Transaction) (address : String)
    (b : Rat) (frag : String) :
    processFragment fromJson address b frag =
      b + (match fromJson frag with
           | some t => txContribution address t
           | none => 0) := by
  unfold processFragment txContribution
  cases fromJson frag with
  | none => simp
  | some t =>
    by_cases hr : t.recipient = address <;> by_cases hs : t.sender = address <;>
      simp [hr, hs] <;> ring

/-- Folding a pointwise-additive step is adding the mapped sum. -/
lemma foldl_add_shift {α : Type} (f : Rat → α → Rat) (g : α → Rat)
    (hf : ∀ b x, f b x = b + g x) :
    ∀ (l : List α) (a : Rat), l.foldl f a = a + (l.map g).sum := by
  intro l
  induction l with
  | nil => intro a; simp
  | cons x xs ih => intro a; simp [hf, ih, add_assoc]

/-- Summing over the parsed fragments only is summing a zero-defaulted map. -/
lemma filterMap_sum (fromJson : String → Option Transaction) (g : Transaction → Rat)
    (l : List String) :
    ((l.filterMap fromJson).map g).sum =
      (l.map (fun s => match fromJson s with | some t => g t | none => 0)).sum := by
  induction l with
  | nil => simp
  | cons x xs ih =>
    cases hx : fromJson x <;> simp [List.filterMap_cons, hx, ih]

/-- C6: get_balance_of_address equals the sum, over every block and every
bar-separated fragment that parses as a Transaction, of plus the amount for
the recipient and minus the amount for the sender; unparsable fragments
contribute nothing, and a transaction whose sender equals its recipient
contributes zero net. -/
theorem get_balance_eq_balanceSpec (fromJson : String → Option Transaction)
    (bc : Blockchain) (address : String) :
    get_balance_of_address fromJson bc address = balanceSpec fromJson bc address ∧
    (∀ t : Transaction, t.sender = t.recipient → txContribution address t = 0) := by
  constructor
  · unfold get_balance_of_address balanceSpec
    have hinner : ∀ (balance : Rat) (block : Block),
        (block.data.splitOn "|").foldl (processFragment fromJson address) balance =
          balance + ((block.data.splitOn "|").map (fun s =>
            match fromJson s with
            | some t => txContribution address t
            | none => 0)).sum :=
      fun balance block =>
        foldl_add_shift _ _ (processFragment_eq fromJson address) _ _
    rw [foldl_add_shift _ _ hinner bc.chain 0, zero_add]
    simp only [filterMap_sum]
  · intro t h
    unfold txContribution
    rw [h, sub_self]

/-! ### C7: mine_pending_transactions -/

/-- A properly mined successor of the chain tail always passes
is_block_valid. -/
lemma minedOk_valid (H : String → String) (latest b : Block) (data : String)
    (d : Nat) (hm : MinedOk H (latest.index + 1) data latest.hash d b) :
    is_block_valid H b latest = true := by
  obtain ⟨hi, -, hp, -, hhash, hpow⟩ := hm
  rw [is_block_valid_iff]
  exact ⟨hi, hp, hhash, hpow⟩

/-- C7: mine_pending_transactions clears the pending pool unconditionally, so
an error from the inner add_block leaves the pool already empty and the old
pending transactions lost; on success the pool is empty and the appended
block's payload is the old pending transactions followed by the System reward
transaction to the miner, joined by the bar character. -/
theorem mine_pending_spec (H : String → String) (toJson : Transaction → String)
    (bc : Blockchain) (miner : String) (ts : Nat) :
    (∀ b : Block,
      ((mine_pending_transactions H toJson bc miner ts b).1).pending_transactions = []) ∧
    (∀ (b : Block) (e : String),
      (mine_pending_transactions H toJson bc miner ts b).2 = Except.error e →
      (mine_pending_transactions H toJson bc miner ts b).1 =
        { bc with pending_transactions := [] }) ∧
    (∀ b latest : Block, bc.chain.getLast? = some latest →
      MinedOk H (latest.index + 1) (minedData toJson bc miner ts) latest.hash
        bc.difficulty b →
      mine_pending_transactions H toJson bc miner ts b =
        ({ bc with pending_transactions := [], chain := bc.chain ++ [b] },
          Except.ok ()) ∧
      b.data = String.intercalate "|" (bc.pending_transactions ++
        [toJson { sender := "System", recipient := miner,
                  amount := bc.mining_reward, timestamp := ts, signature := none }])) := by
  refine ⟨?_, ?_, ?_⟩
  · intro b
    unfold mine_pending_transactions add_block_with
    rcases hl : bc.chain.getLast? with - | latest
    · simp [hl]
    · by_cases hv : is_block_valid H b latest <;> simp [hl, hv]
  · intro b e he
    unfold mine_pending_transactions add_block_with at he ⊢
    rcases hl : bc.chain.getLast? with - | latest
    · simp [hl]
    · by_cases hv : is_block_valid H b latest
      · simp [hl, hv] at he
      · simp [hl, hv]
  · intro b latest hl hm
    have hv : is_block_valid H b latest = true := minedOk_valid H latest b _ _ hm
    constructor
    · unfold mine_pending_transactions add_block_with
      simp [hl, hv]
    · rw [hm.2.1]
      rfl

/-! ### C5: the selection rule of resolve_conflicts -/

/-- Validity of a candidate as resolve_conflicts checks it only depends on
the candidate: the temporary blockchain's other fields are ignored. -/
lemma temp_chain_valid (H : String → String) (c : List Block) (d : Nat) (mr : Rat) :
    is_chain_valid H (tempChain c d mr) = chainPairsValid H c := rfl

/-- Selection kernel of the scan loop: the first candidate strictly longer
than the running maximum and valid, unless a strictly longer valid one
follows. -/
def pickChain (H : String → String) : List (List Block) → Nat → Option (List Block)
  | [], _ => none
  | c :: rest, maxLen =>
      if maxLen < c.length ∧ chainPairsValid H c = true then
        match pickChain H rest c.length with
        | some c2 => some c2
        | none => some c
      else pickChain H rest maxLen

/-- Unfolding of one scan step, with the two nested conditions merged. -/
lemma scanChains_cons (H : String → String) (d : Nat) (mr : Rat) (c : List Block)
    (rest : List (List Block)) (best : Option (List Block)) (maxLen : Nat) :
    scanChains H d mr (c :: rest) best maxLen =
      if maxLen < c.length ∧ chainPairsValid H c = true then
        scanChains H d mr rest (some c) c.length
      else scanChains H d mr rest best maxLen := by
  simp only [scanChains, temp_chain_valid]
  by_cases h1 : maxLen < c.length
  · by_cases h2 : chainPairsValid H c = true
    · rw [if_pos h1, if_pos h2, if_pos ⟨h1, h2⟩]
    · rw [if_pos h1, if_neg h2, if_neg (fun h => h2 h.2)]
  · rw [if_neg h1, if_neg (fun h => h1 h.1)]

/-- Unfolding of one pickChain step. -/
lemma pickChain_cons (H : String → String) (c : List Block)
    (rest : List (List Block)) (maxLen : Nat) :
    pickChain H (c :: rest) maxLen =
      if maxLen < c.length ∧ chainPairsValid H c = true then
        match pickChain H rest c.length with
        | some c2 => some c2
        | none => some c
      else pickChain H rest maxLen := rfl

/-- The scan loop in terms of pickChain. -/
lemma scanChains_eq_pick (H : String → String) (d : Nat) (mr : Rat) :
    ∀ (l : List (List Block)) (best : Option (List Block)) (maxLen : Nat),
      scanChains H d mr l best maxLen =
        match pickChain H l maxLen with
        | some c => (some c, c.length)
        | none => (best, maxLen) := by
  intro l
  induction l with
  | nil => intro best maxLen; rfl
  | cons c rest ih =>
    intro best maxLen
    rw [scanChains_cons, pickChain_cons]
    by_cases h : maxLen < c.length ∧ chainPairsValid H c = true
    · rw [if_pos h, if_pos h, ih]
      cases pickChain H rest c.length <;> rfl
    · rw [if_neg h, if_neg h, ih]

/-- resolve_conflicts in terms of pickChain. -/
lemma resolve_conflicts_eq (H : String → String) (bc : Blockchain)
    (others : List (List Block)) :
    resolve_conflicts H bc others =
      match pickChain H others bc.chain.length with
      | some c => ({ bc with chain := c }, true)
      | none => (bc, false) := by
  unfold resolve_conflicts
  rw [scanChains_eq_pick]
  cases pickChain H others bc.chain.length <;> rfl

/-- pickChain returns nothing exactly when no candidate beats the threshold
and validates. -/
lemma pickChain_eq_none_iff (H : String → String) :
    ∀ (l : List (List Block)) (L : Nat),
      pickChain H l L = none ↔
        ∀ c ∈ l, ¬(L < c.length ∧ chainPairsValid H c = true) := by
  intro l
  induction l with
  | nil => intro L; simp [pickChain]
  | cons c rest ih =>
    intro L
    rw [pickChain_cons]
    by_cases h : L < c.length ∧ chainPairsValid H c = true
    · rw [if_pos h]
      apply iff_of_false
      · cases hp : pickChain H rest c.length <;> simp [hp]
      · intro hall
        exact hall c (List.mem_cons_self c rest) h
    · rw [if_neg h, ih]
      constructor
      · intro hrest c2 hc2
        rcases List.mem_cons.mp hc2 with rfl | hm
        · exact h
        · exact hrest c2 hm
      · intro hall c2 hm
        exact hall c2 (List.mem_cons_of_mem _ hm)

/-- A pickChain winner is a member, beats the threshold, validates, and no
qualifying candidate is longer. -/
lemma pickChain_some (H : String → String) :
    ∀ (l : List (List Block)) (L : Nat) (c : List Block),
      pickChain H l L = some c →
        c ∈ l ∧ L < c.length ∧ chainPairsValid H c = true ∧
        ∀ c2 ∈ l, L < c2.length → chainPairsValid H c2 = true →
          c2.length ≤ c.length := by
  intro l
  induction l with
  | nil => intro L c h; simp [pickChain] at h
  | cons c0 rest ih =>
    intro L c hc
    rw [pickChain_cons] at hc
    by_cases h : L < c0.length ∧ chainPairsValid H c0 = true
    · rw [if_pos h] at hc
      cases hp : pickChain H rest c0.length with
      | some c2 =>
        rw [hp] at hc
        have hcc : c2 = c := by simpa using hc
        obtain ⟨hmem, hlen, hvalid, hmax⟩ := ih c0.length c2 hp
        rw [hcc] at hmem hlen hvalid hmax
        refine ⟨List.mem_cons_of_mem _ hmem, lt_trans h.1 hlen, hvalid, ?_⟩
        intro c3 hc3 hL hv
        rcases List.mem_cons.mp hc3 with rfl | hm
        · exact le_of_lt hlen
        · by_cases hcl : c0.length < c3.length
          · exact hmax c3 hm hcl hv
          · exact le_trans (not_lt.mp hcl) (le_of_lt hlen)
      | none =>
        rw [hp] at hc
        have hcc : c0 = c := by simpa using hc
        subst hcc
        refine ⟨List.mem_cons_self c0 rest, h.1, h.2, ?_⟩
        intro c3 hc3 hL hv
        rcases List.mem_cons.mp hc3 with rfl | hm
        · exact le_refl _
        · have hno := (pickChain_eq_none_iff H rest c0.length).mp hp c3 hm
          by_contra hgt
          exact hno ⟨lt_of_not_le hgt, hv⟩
    · rw [if_neg h] at hc
      obtain ⟨hmem, hlen, hvalid, hmax⟩ := ih L c hc
      refine ⟨List.mem_cons_of_mem _ hmem, hlen, hvalid, ?_⟩
      intro c3 hc3 hL hv
      rcases List.mem_cons.mp hc3 with rfl | hm
      · exact absurd ⟨hL, hv⟩ h
      · exact hmax c3 hm hL hv

/-- The pickChain winner is the first qualifying candidate of its length:
every earlier candidate that beats the threshold and validates is strictly
shorter than the winner. -/
lemma pickChain_first (H : String → String) :
    ∀ (l : List (List Block)) (L : Nat) (c : List Block),
      pickChain H l L = some c →
        ∃ i, ∃ hi : i < l.length, l.get ⟨i, hi⟩ = c ∧
          ∀ j (hj : j < l.length), j < i →
            L < (l.get ⟨j, hj⟩).length → chainPairsValid H (l.get ⟨j, hj⟩) = true →
            (l.get ⟨j, hj⟩).length < c.length := by
  intro l
  induction l with
  | nil => intro L c h; simp [pickChain] at h
  | cons c0 rest ih =>
    intro L c hc
    rw [pickChain_cons] at hc
    by_cases h : L < c0.length ∧ chainPairsValid H c0 = true
    · rw [if_pos h] at hc
      cases hp : pickChain H rest c0.length with
      | some c2 =>
        rw [hp] at hc
        have hcc : c2 = c := by simpa using hc
        subst hcc
        have hlen : c0.length < c2.length := (pickChain_some H rest c0.length c2 hp).2.1
        obtain ⟨i, hi, hget, hfirst⟩ := ih c0.length c2 hp
        refine ⟨i + 1, Nat.succ_lt_succ hi, by simpa using hget, ?_⟩
        intro j hj hji hL hv
        cases j with
        | zero => simpa using hlen
        | succ j2 =>
          have hj2 : j2 < rest.length := Nat.lt_of_succ_lt_succ hj
          have hjilt : j2 < i := Nat.lt_of_succ_lt_succ hji
          simp only [List.get_cons_succ] at hL hv ⊢
          by_cases hcl : c0.length < (rest.get ⟨j2, hj2⟩).length
          · exact hfirst j2 hj2 hjilt hcl hv
          · exact lt_of_le_of_lt (not_lt.mp hcl) hlen
      | none =>
        rw [hp] at hc
        have hcc : c0 = c := by simpa using hc
        subst hcc
        refine ⟨0, Nat.succ_pos _, rfl, ?_⟩
        intro j hj hji
        exact absurd hji (Nat.not_lt_zero j)
    · rw [if_neg h] at hc
      obtain ⟨i, hi, hget, hfirst⟩ := ih L c hc
      refine ⟨i + 1, Nat.succ_lt_succ hi, by simpa using hget, ?_⟩
      intro j hj hji hL hv
      cases j with
      | zero =>
        exact absurd ⟨hL, hv⟩ h
      | succ j2 =>
        have hj2 : j2 < rest.length := Nat.lt_of_succ_lt_succ hj
        have hjilt : j2 < i := Nat.lt_of_succ_lt_succ hji
        simp only [List.get_cons_succ] at hL hv ⊢
        exact hfirst j2 hj2 hjilt hL hv

/-- C5 (amended): resolve_conflicts returns true exactly when some candidate
is strictly longer than the local chain and valid; on false the ledger is
unchanged; on true the local chain becomes a strictly longer valid candidate
of maximal length among the qualifying ones, the FIRST scanned among ties at
that maximal length, since the source skips candidates whose length does not
exceed the running maximum. -/
theorem resolve_conflicts_spec (H : String → String) (bc : Blockchain)
    (others : List (List Block)) :
    ((resolve_conflicts H bc others).2 = true ↔
      ∃ c ∈ others, bc.chain.length < c.length ∧ chainPairsValid H c = true) ∧
    ((resolve_conflicts H bc others).2 = false → (resolve_conflicts H bc others).1 = bc) ∧
    ((resolve_conflicts H bc others).2 = true →
      ∃ i, ∃ hi : i < others.length,
        (resolve_conflicts H bc others).1 = { bc with chain := others.get ⟨i, hi⟩ } ∧
        bc.chain.length < (others.get ⟨i, hi⟩).length ∧
        chainPairsValid H (others.get ⟨i, hi⟩) = true ∧
        (∀ c ∈ others, bc.chain.length < c.length → chainPairsValid H c = true →
          c.length ≤ (others.get ⟨i, hi⟩).length) ∧
        (∀ j (hj : j < others.length), j < i →
          bc.chain.length < (others.get ⟨j, hj⟩).length →
          chainPairsValid H (others.get ⟨j, hj⟩) = true →
          (others.get ⟨j, hj⟩).length < (others.get ⟨i, hi⟩).length)) := by
  cases hp : pickChain H others bc.chain.length with
  | none =>
    have hres : resolve_conflicts H bc others = (bc, false) := by
      rw [resolve_conflicts_eq, hp]
    have hall := (pickChain_eq_none_iff H others bc.chain.length).mp hp
    refine ⟨?_, ?_, ?_⟩
    · rw [hres]
      apply iff_of_false (by simp)
      rintro ⟨c, hm, hlen, hv⟩
      exact hall c hm ⟨hlen, hv⟩
    · intro _
      rw [hres]
    · rw [hres]
      intro habs
      simp at habs
  | some c =>
    have hres : resolve_conflicts H bc others = ({ bc with chain := c }, true) := by
      rw [resolve_conflicts_eq, hp]
    obtain ⟨hmem, hlen, hvalid, hmax⟩ := pickChain_some H others bc.chain.length c hp
    obtain ⟨i, hi, hget, hfirst⟩ := pickChain_first H others bc.chain.length c hp
    refine ⟨?_, ?_, ?_⟩
    · rw [hres]
      exact iff_of_true rfl ⟨c, hmem, hlen, hvalid⟩
    · rw [hres]
      intro habs
      simp at habs
    · intro _
      refine ⟨i, hi, ?_⟩
      rw [hget]
      exact ⟨by rw [hres], hlen, hvalid, hmax,
        fun j hj hji hL hv => hfirst j hj hji hL hv⟩

/-! ### C1: tamper detection -/

/-- chainPairsValid is the Chain' of the pairwise block check. -/
lemma chainPairsValid_iff_chain (H : String → String) :
    ∀ l : List Block, chainPairsValid H l = true ↔
      List.Chain' (fun a b => is_block_valid H b a = true) l := by
  intro l
  induction l with
  | nil => simp [chainPairsValid]
  | cons a tl ih =>
    cases tl with
    | nil => simp [chainPairsValid]
    | cons b rest =>
      rw [List.chain'_cons, ← ih,
        show chainPairsValid H (a :: b :: rest) =
          (is_block_valid H b a && chainPairsValid H (b :: rest)) from rfl,
        Bool.and_eq_true]

/-- The data field can be cancelled out of equal digest inputs when every
other field agrees. -/
lemma hashInput_data_cancel (i : Nat) (p : String) (t : Nat) (x y : String)
    (n df : Nat) (h : hashInput i p t x n df = hashInput i p t y n df) : x = y := by
  unfold hashInput at h
  have h2 := congrArg String.data h
  simp only [String.data_append, List.append_assoc] at h2
  have h3 := List.append_cancel_left h2
  have h4 := List.append_cancel_left h3
  have h5 := List.append_cancel_left h4
  have h6 := List.append_cancel_right h5
  exact String.ext h6

/-- One single-field mutation of a block, as in the tamper-detection claim. -/
inductive Mutation where
  | setIndex (v : Nat)
  | setData (v : String)
  | setPrevHash (v : String)
  | setHash (v : String)

/-- Apply a mutation to a block. -/
def applyMutation : Mutation → Block → Block
  | .setIndex v, b => { b with index := v }
  | .setData v, b => { b with data := v }
  | .setPrevHash v, b => { b with previous_hash := v }
  | .setHash v, b => { b with hash := v }

/-- The mutation writes a value different from the field's current one. -/
def mutDiffers : Mutation → Block → Prop
  | .setIndex v, b => v ≠ b.index
  | .setData v, b => v ≠ b.data
  | .setPrevHash v, b => v ≠ b.previous_hash
  | .setHash v, b => v ≠ b.hash

/-- C1: for an injective digest (collision resistance of SHA-256), mutating
any single field, data, index, previous_hash or hash, of any non-genesis
block of a currently valid chain to a different value makes is_chain_valid
false. -/
theorem tamper_detection (H : String → String) (hinj : Function.Injective H)
    (bc : Blockchain) (hv : is_chain_valid H bc = true)
    (i : Nat) (h1 : 1 ≤ i) (h2 : i < bc.chain.length)
    (m : Mutation) (hd : mutDiffers m (bc.chain.get ⟨i, h2⟩)) :
    is_chain_valid H
      { bc with chain := bc.chain.set i (applyMutation m (bc.chain.get ⟨i, h2⟩)) } =
      false := by
  have hch := (chainPairsValid_iff_chain H bc.chain).mp hv
  have him1 : i - 1 < bc.chain.length - 1 := by omega
  have hpair := (List.chain'_iff_get.mp hch) (i - 1) him1
  have hsucc : i - 1 + 1 = i := by omega
  rw [is_chain_valid]
  by_contra hne
  have htrue : chainPairsValid H
      (bc.chain.set i (applyMutation m (bc.chain.get ⟨i, h2⟩))) = true := by
    cases hcb : chainPairsValid H
        (bc.chain.set i (applyMutation m (bc.chain.get ⟨i, h2⟩)))
    · exact absurd hcb hne
    · rfl
  have hch2 := (chainPairsValid_iff_chain H _).mp htrue
  have hlen2 : i - 1 <
      (bc.chain.set i (applyMutation m (bc.chain.get ⟨i, h2⟩))).length - 1 := by
    rw [List.length_set]; omega
  have hpair2 := (List.chain'_iff_get.mp hch2) (i - 1) hlen2
  have e1 : (bc.chain.set i (applyMutation m (bc.chain.get ⟨i, h2⟩))).get
      ⟨i - 1 + 1, by omega⟩ = applyMutation m (bc.chain.get ⟨i, h2⟩) := by
    simp [List.get_eq_getElem, hsucc]
  have e2 : (bc.chain.set i (applyMutation m (bc.chain.get ⟨i, h2⟩))).get
      ⟨i - 1, by omega⟩ = bc.chain.get ⟨i - 1, by omega⟩ := by
    simp [List.get_eq_getElem, List.getElem_set_ne (show i ≠ i - 1 by omega)]
  rw [e1, e2] at hpair2
  have hpairv := (is_block_valid_iff H _ _).mp hpair
  have hpairv2 := (is_block_valid_iff H _ _).mp hpair2
  have hget1 : bc.chain.get ⟨i - 1 + 1, by omega⟩ = bc.chain.get ⟨i, h2⟩ := by
    simp [List.get_eq_getElem, hsucc]
  rw [hget1] at hpairv
  cases m with
  | setIndex v =>
    have ha2 := hpairv2.1
    have ha := hpairv.1
    simp only [applyMutation] at ha2
    exact hd (ha2.trans ha.symm)
  | setPrevHash v =>
    have ha2 := hpairv2.2.1
    have ha := hpairv.2.1
    simp only [applyMutation] at ha2
    exact hd (ha2.trans ha.symm)
  | setHash v =>
    have ha2 := hpairv2.2.2.1
    have ha := hpairv.2.2.1
    simp only [applyMutation] at ha2
    exact hd (ha2.trans ha.symm)
  | setData v =>
    have ha2 := hpairv2.2.2.1
    have ha := hpairv.2.2.1
    simp only [applyMutation] at ha2
    have hHeq : calculate_hash H (bc.chain.get ⟨i, h2⟩).index
        (bc.chain.get ⟨i, h2⟩).previous_hash (bc.chain.get ⟨i, h2⟩).timestamp
        (bc.chain.get ⟨i, h2⟩).data (bc.chain.get ⟨i, h2⟩).nonce
        (bc.chain.get ⟨i, h2⟩).difficulty =
      calculate_hash H (bc.chain.get ⟨i, h2⟩).index
        (bc.chain.get ⟨i, h2⟩).previous_hash (bc.chain.get ⟨i, h2⟩).timestamp
        v (bc.chain.get ⟨i, h2⟩).nonce (bc.chain.get ⟨i, h2⟩).difficulty :=
      ha.symm.trans ha2
    have hinput := hinj hHeq
    exact hd (hashInput_data_cancel _ _ _ _ _ _ _ hinput).symm

/-! ### C3 and C4: invariants of reachable states -/

/-- Adjacent-pair invariant maintained by every reachable state: index and
previous-hash linkage plus proof of work for the second block of the pair. -/
def linkedPoW (H : String → String) (a b : Block) : Prop :=
  b.index = a.index + 1 ∧ b.previous_hash = a.hash ∧ PoW H b

/-- A passing pairwise check gives the linked proof-of-work facts for the
later block. -/
lemma linkedPoW_of_block_valid (H : String → String) (a b : Block)
    (h : is_block_valid H b a = true) : linkedPoW H a b := by
  obtain ⟨h1, h2, h3, h4⟩ := (is_block_valid_iff H b a).mp h
  exact ⟨h1, h2, h3, h4⟩

/-- create_transaction never touches the chain. -/
lemma create_transaction_chain (toJson : Transaction → String) (bc : Blockchain)
    (t : Transaction) : ((create_transaction toJson bc t).1).chain = bc.chain := by
  unfold create_transaction
  by_cases h : t.is_valid <;> simp [h]

/-- add_block_with preserves non-emptiness and the pair invariant when the
incoming block either is rejected or links to the tail with proof of work. -/
lemma add_block_with_inv (H : String → String) (bc : Blockchain) (b : Block)
    (h1 : bc.chain ≠ []) (h2 : List.Chain' (linkedPoW H) bc.chain)
    (hb : ∀ latest, bc.chain.getLast? = some latest → linkedPoW H latest b) :
    ((add_block_with H bc b).1).chain ≠ [] ∧
    List.Chain' (linkedPoW H) ((add_block_with H bc b).1).chain := by
  unfold add_block_with
  cases hl : bc.chain.getLast? with
  | none => exact ⟨h1, h2⟩
  | some latest =>
    dsimp only
    by_cases hvb : is_block_valid H b latest
    · rw [if_pos hvb]
      refine ⟨by simp, ?_⟩
      refine List.chain'_append.mpr ⟨h2, List.chain'_singleton b, ?_⟩
      intro x hx y hy
      rw [Option.mem_def, hl, Option.some_inj] at hx
      rw [Option.mem_def, List.head?_cons, Option.some_inj] at hy
      subst hx
      subst hy
      exact hb latest hl
    · rw [if_neg hvb]
      exact ⟨h1, h2⟩

/-- Invariant of every reachable ledger state: the chain is non-empty and
every adjacent pair satisfies linkedPoW. -/
lemma reachable_inv (H : String → String) (toJson : Transaction → String)
    (st : Blockchain) (hr : Reachable H toJson st) :
    st.chain ≠ [] ∧ List.Chain' (linkedPoW H) st.chain := by
  induction hr with
  | init d mr g hg => exact ⟨by simp, List.chain'_singleton g⟩
  | add st data b hst hb ih =>
    refine add_block_with_inv H st b ih.1 ih.2 ?_
    intro latest hl
    obtain ⟨hi, -, hp, -, hpow⟩ := hb latest hl
    exact ⟨hi, hp, hpow⟩
  | tx st t hst ih =>
    rw [show ((create_transaction toJson st t).1).chain = st.chain from
      create_transaction_chain toJson st t] at *
    exact ih
  | mine st miner ts b hst hb ih =>
    refine add_block_with_inv H { st with pending_transactions := [] } b ih.1 ih.2 ?_
    intro latest hl
    obtain ⟨hi, -, hp, -, hpow⟩ := hb latest hl
    exact ⟨hi, hp, hpow⟩
  | node st address hst ih => exact ih
  | resolve st cands hst ih =>
    cases hp : pickChain H cands st.chain.length with
    | none =>
      have hres : resolve_conflicts H st cands = (st, false) := by
        rw [resolve_conflicts_eq, hp]
      rw [hres]
      exact ih
    | some c =>
      have hres : resolve_conflicts H st cands = ({ st with chain := c }, true) := by
        rw [resolve_conflicts_eq, hp]
      rw [hres]
      obtain ⟨-, hlen, hvalid, -⟩ := pickChain_some H cands st.chain.length c hp
      constructor
      · have hpos : 0 < c.length := by
          have : 0 < st.chain.length := List.length_pos.mpr ih.1
          omega
        exact List.ne_nil_of_length_pos hpos
      · have hch := (chainPairsValid_iff_chain H c).mp hvalid
        exact hch.imp (fun a b hab => linkedPoW_of_block_valid H a b hab)

/-- C3 (amended): in every reachable ledger state the chain is non-empty and
for all i > 0 the block at i has the index of its predecessor plus one and
records its predecessor's hash.  The genesis conditions, chain[0].index = 0
and chain[0].previous_hash = "0", hold at construction but are not preserved:
resolve_conflicts never validates the first block of an adopted candidate. -/
theorem reachable_chain_links (H : String → String) (toJson : Transaction → String)
    (st : Blockchain) (hr : Reachable H toJson st) :
    st.chain ≠ [] ∧
    ∀ i (h : i + 1 < st.chain.length),
      (st.chain.get ⟨i + 1, h⟩).index = (st.chain.get ⟨i, Nat.lt_of_succ_lt h⟩).index + 1 ∧
      (st.chain.get ⟨i + 1, h⟩).previous_hash =
        (st.chain.get ⟨i, Nat.lt_of_succ_lt h⟩).hash := by
  obtain ⟨h1, h2⟩ := reachable_inv H toJson st hr
  refine ⟨h1, ?_⟩
  intro i h
  have hp := (List.chain'_iff_get.mp h2) i (by omega)
  exact ⟨hp.1, hp.2.1⟩

/-- C4 (amended): in every reachable ledger state, every block after the
first has a hash equal to the digest of its own fields with at least its
recorded difficulty many leading zeros.  The first block of the chain
satisfies this at construction but resolve_conflicts can adopt a candidate
whose first block was never checked. -/
theorem reachable_pow (H : String → String) (toJson : Transaction → String)
    (st : Blockchain) (hr : Reachable H toJson st) :
    ∀ i (h : i + 1 < st.chain.length), PoW H (st.chain.get ⟨i + 1, h⟩) := by
  obtain ⟨-, h2⟩ := reachable_inv H toJson st hr
  intro i h
  exact ((List.chain'_iff_get.mp h2) i (by omega)).2.2

/-! ### C10: difficulty above 64 is unsatisfiable -/

/-- C10: when the digest always returns 64 characters, as hex-encoded SHA-256
does, every calculate_hash output has length 64; no 64-character string
passes is_hash_valid at a difficulty above 64; hence no nonce satisfies the
mining condition of Block::new at such a difficulty, and no block whose
recorded difficulty exceeds 64 passes is_block_valid. -/
theorem difficulty_above_64_unminable (H : String → String)
    (hlen : ∀ s, (H s).length = 64) (d : Nat) (hd : 64 < d) :
    (∀ (i : Nat) (p : String) (t : Nat) (dat : String) (n df : Nat),
      (calculate_hash H i p t dat n df).length = 64) ∧
    (∀ h : String, h.length = 64 → is_hash_valid h d = false) ∧
    (∀ (i : Nat) (p : String) (t : Nat) (dat : String) (n : Nat),
      is_hash_valid (calculate_hash H i p t dat n d) d = false) ∧
    (∀ b prev : Block, b.difficulty = d → is_block_valid H b prev = false) := by
  have hcl : ∀ (i : Nat) (p : String) (t : Nat) (dat : String) (n df : Nat),
      (calculate_hash H i p t dat n df).length = 64 := by
    intro i p t dat n df
    exact hlen _
  have hhv : ∀ h : String, h.length = 64 → is_hash_valid h d = false := by
    intro h hl
    cases hiv : is_hash_valid h d
    · rfl
    · exfalso
      have hle := (replicate_zero_isPrefixOf_iff d h.data).mp hiv
      have hb : (h.data.takeWhile (fun c => c == '0')).length ≤ h.data.length :=
        (List.takeWhile_sublist _).length_le
      have hl64 : h.data.length = 64 := hl
      omega
  refine ⟨hcl, hhv, fun i p t dat n => hhv _ (hcl i p t dat n d), ?_⟩
  intro b prev hbd
  cases hbv : is_block_valid H b prev
  · rfl
  · exfalso
    obtain ⟨-, -, hhash, hdiff⟩ := (is_block_valid_iff H b prev).mp hbv
    have : is_hash_valid b.hash b.difficulty = false := by
      rw [hbd]
      refine hhv _ ?_
      rw [hhash]
      exact hcl _ _ _ _ _ _
    rw [hbd] at this
    rw [hbd] at hdiff
    exact absurd hdiff (by rw [this]; simp)

/-! ### Concrete instances for witnesses and counterexamples -/

/-- Identity digest, injective: instantiates the collision-resistance
hypothesis in witnesses. -/
def idDigest : String → String := fun s => s

/-- Constant 64-character digest: instantiates the width hypothesis. -/
def hash64 : String → String := fun _ => String.mk (List.replicate 64 'a')

/-- Trivial serializer for witnesses that leave toJson arbitrary. -/
def constJson : Transaction → String := fun _ => "tx"

/-- Genesis block of Blockchain::new(0, 0) under idDigest, clock at 0. -/
def g0 : Block :=
  { index := 0, timestamp := 0, data := "Genesis Block", previous_hash := "0",
    hash := calculate_hash idDigest 0 "0" 0 "Genesis Block" 0 0, nonce := 0,
    difficulty := 0 }

/-- Initial ledger with genesis g0. -/
def st0 : Blockchain :=
  { chain := [g0], pending_transactions := [], difficulty := 0, mining_reward := 0,
    nodes := [] }

/-- Second block of a valid two-block chain under idDigest. -/
def blk1 : Block :=
  { index := 1, timestamp := 0, data := "d1", previous_hash := g0.hash,
    hash := calculate_hash idDigest 1 g0.hash 0 "d1" 0 0, nonce := 0,
    difficulty := 0 }

/-- Valid two-block ledger used by the tamper-detection witness. -/
def bcW : Blockchain :=
  { chain := [g0, blk1], pending_transactions := [], difficulty := 0,
    mining_reward := 0, nodes := [] }

/-- First block of the rogue candidate: index 5, foreign previous hash and a
bogus recorded hash; is_chain_valid never looks at any of them. -/
def rogue1 : Block :=
  { index := 5, timestamp := 0, data := "x", previous_hash := "y", hash := "junk",
    nonce := 0, difficulty := 0 }

/-- Second block of the rogue candidate, correctly linked to rogue1. -/
def rogue2 : Block :=
  { index := 6, timestamp := 0, data := "z", previous_hash := "junk",
    hash := calculate_hash idDigest 6 "junk" 0 "z" 0 0, nonce := 0,
    difficulty := 0 }

/-- Variant of rogue2 with a different payload, for the tie-break
counterexample. -/
def rogueB2 : Block :=
  { index := 6, timestamp := 0, data := "w", previous_hash := "junk",
    hash := calculate_hash idDigest 6 "junk" 0 "w" 0 0, nonce := 0,
    difficulty := 0 }

/-- First candidate: passes is_chain_valid, length 2. -/
def candA : List Block := [rogue1, rogue2]

/-- Second candidate: also valid, same length, different content. -/
def candB : List Block := [rogue1, rogueB2]

/-- Ledger after resolve_conflicts adopts the rogue candidate. -/
def stRogue : Blockchain := (resolve_conflicts idDigest st0 [[rogue1, rogue2]]).1

/-- The rogue state is reachable: construction, then one resolve_conflicts
call on a strictly longer candidate that passes is_chain_valid. -/
lemma stRogue_reachable : Reachable idDigest constJson stRogue :=
  Reachable.resolve st0 [[rogue1, rogue2]]
    (Reachable.init 0 0 g0 (by decide))

/-! ### Witnesses and counterexamples -/

/-- C1 witness: tampering with the data of block 1 of a concrete valid
two-block chain under the injective identity digest flips is_chain_valid to
false. -/
theorem tamper_detection_witness :
    Function.Injective idDigest ∧
    is_chain_valid idDigest bcW = true ∧
    1 ≤ 1 ∧ 1 < bcW.chain.length ∧
    mutDiffers (Mutation.setData "tampered") (bcW.chain.get ⟨1, by decide⟩) ∧
    is_chain_valid idDigest
      { bcW with chain := bcW.chain.set 1 (applyMutation (Mutation.setData "tampered") (bcW.chain.get ⟨1, by decide⟩)) } = false :=
  ⟨fun a b h => h, by decide, by decide, by decide,
    (by decide : ("tampered" : String) ≠ blk1.data),
    tamper_detection idDigest (fun a b h => h) bcW (by decide) 1 (by decide)
      (by decide) (Mutation.setData "tampered")
      (by decide : ("tampered" : String) ≠ blk1.data)⟩

/-- C3 counterexample: a reachable ledger state whose first block has index 5
and previous hash "y": resolve_conflicts adopted a strictly longer candidate
whose first block is never validated, so both genesis conditions of the claim
fail while the state is reachable. -/
theorem genesis_conditions_fail_after_resolve :
    Reachable idDigest constJson stRogue ∧
    stRogue.chain.head?.map Block.index ≠ some 0 ∧
    stRogue.chain.head?.map Block.previous_hash ≠ some "0" :=
  ⟨stRogue_reachable, by decide, by decide⟩

/-- C3 witness: the amended invariant applied to the concrete initial state
produced by construction. -/
theorem reachable_chain_links_witness : st0.chain ≠ [] :=
  (reachable_chain_links idDigest constJson st0 (Reachable.init 0 0 g0 (by decide))).1

/-- C4 counterexample: the same reachable rogue state carries a first block
whose recorded hash is not the digest of its fields, so the proof-of-work
invariant fails for it. -/
theorem pow_fails_after_resolve :
    Reachable idDigest constJson stRogue ∧
    stRogue.chain.head? = some rogue1 ∧
    rogue1.hash ≠ calculate_hash idDigest rogue1.index rogue1.previous_hash
      rogue1.timestamp rogue1.data rogue1.nonce rogue1.difficulty :=
  ⟨stRogue_reachable, by decide, by decide⟩

/-- C4 witness: the amended proof-of-work invariant applied to block 1 of the
concrete reachable rogue state. -/
theorem reachable_pow_witness :
    PoW idDigest (stRogue.chain.get ⟨0 + 1, by decide⟩) :=
  reachable_pow idDigest constJson stRogue stRogue_reachable 0 (by decide)

/-- C5 counterexample: with two valid strictly longer candidates of equal
maximal length, resolve_conflicts keeps the first scanned, not the last one:
the local chain becomes candA although candB, scanned last, is also strictly
longer, valid, and of the same maximal length. -/
theorem resolve_keeps_first_among_ties :
    (resolve_conflicts idDigest st0 [candA, candB]).2 = true ∧
    ((resolve_conflicts idDigest st0 [candA, candB]).1).chain = candA ∧
    candA ≠ candB ∧
    candB.length = candA.length ∧
    st0.chain.length < candB.length ∧
    chainPairsValid idDigest candB = true := by
  refine ⟨?_, ?_, ?_, ?_, ?_, ?_⟩ <;> decide

/-- C10 witness: a constant 64-character digest at difficulty 65; the mining
condition fails at a concrete nonce. -/
theorem difficulty_above_64_unminable_witness :
    (∀ s, (hash64 s).length = 64) ∧ 64 < 65 ∧
    is_hash_valid (calculate_hash hash64 0 "p" 0 "d" 0 65) 65 = false :=
  ⟨fun _ => rfl, by omega,
    (difficulty_above_64_unminable hash64 (fun _ => rfl) 65 (by omega)).2.2.1
      0 "p" 0 "d" 0⟩

end RustChain
